import Mathlib

/-!
# Verification of the `mixer` HTTP multiplexer core

A shallow embedding of the registration/matching engine of the `mixer`
package (file `mixer.go`): the segment splitter, the trie of `node`s, the
copy-on-write `insert` transaction, the `Handle` registration facade and
the `Handler` dispatch traversal.

Modelling decisions, all driven by the Go source:

* Go pointer identity of converters (`*convert`) is modelled by the
  two-element inductive `convert`: `NewServeMixer` allocates exactly two
  converter objects (`sc := convert(strConv)` and `ic := convert(intConv)`);
  the registry maps the names `""` and `"str"` to the *same* object `sc`
  and `"int"` to `ic`, so pointer comparison `child.conv != in.conv`
  becomes equality of `convert` values.
* Go method tables (`map[string]http.Handler`) are shared by reference
  (`deepcopy` keeps `Methods` links).  They are modelled as a heap:
  `ServeMixer.tables` maps a numeric reference to a table, and each node
  stores `Option Nat` — `none` is Go's nil map, `some r` a reference.
* `http.Handler` values are opaque; they are modelled by `Nat` identities
  (`HttpHandler`).  A Go nil handler argument is `Option.none`.
* Registration-time panics of `Handle` are modelled by returning the
  mixer state at the moment of the panic together with `some` error;
  the `ServeMixerError` decoration (method/pattern strings) is dropped,
  keeping only the wrapped error kind.
* `strconv.Atoi` is modelled as an exact base-10 parse with optional
  sign (`atoi`); 64-bit range errors are outside the inputs considered.
-/

deriving instance DecidableEq for Except

/-- Error kinds of the package (`errors.New` values in `mixer.go`).
`ErrNilConv` is not a Go error value: it marks the nil-pointer
dereference panic `(*child.conv)(part)` would raise when a `:`-edge
carries a nil converter (unreachable from the public API). -/
inductive MixErr where
  | ErrMethod
  | ErrHandler
  | ErrPattern
  | ErrDuplicate
  | ErrNotFound
  | ErrPathParam
  | ErrMultiplePathParam
  | ErrNilConv
deriving DecidableEq, Repr

/-- The two converter objects allocated by `NewServeMixer`:
`sc` is `&sc` for `sc := convert(strConv)`, `ic` is `&ic` for
`ic := convert(intConv)`.  Equality models Go pointer identity. -/
inductive convert where
  | sc
  | ic
deriving DecidableEq, Repr

/-- Converted path-parameter values (`interface{}` results of converters). -/
inductive Val where
  | str (s : String)
  | int (i : Int)
deriving DecidableEq, Repr

/-- Numeric value of a list of decimal digits. -/
def digitsVal (ds : List Char) : Nat :=
  ds.foldl (fun a c => a * 10 + (c.toNat - '0'.toNat)) 0

/-- `strconv.Atoi`: optional sign followed by at least one decimal digit. -/
def atoi (s : String) : Option Int :=
  match s.data with
  | [] => none
  | c :: ds =>
    if c = '+' then
      if !ds.isEmpty && ds.all Char.isDigit then some (digitsVal ds) else none
    else if c = '-' then
      if !ds.isEmpty && ds.all Char.isDigit then some (-(digitsVal ds : Int)) else none
    else
      if (c :: ds).all Char.isDigit then some (digitsVal (c :: ds)) else none

/-- Applying a converter object to a segment string:
`strConv` returns the string unchanged and never fails,
`intConv` is `strconv.Atoi`. -/
def convert.apply : convert → String → Option Val
  | .sc, s => some (.str s)
  | .ic, s => (atoi s).map .int

/-- `pathToken` — delimiter for splitting URL parts. -/
def pathToken : String := "/"

/-- `typeToken` — special token for URL path params. -/
def typeToken : String := ":"

/-- `other` node kind (`*`, the `iota` constant 0). -/
def other : Nat := 0

/-- `param` node kind (`:`, the `iota` constant 1). -/
def param : Nat := 1

/-- `slash` node kind (trailing `/`, the `iota` constant 2). -/
def slash : Nat := 2

/-- `root` node kind (only for `tree.root`, the `iota` constant 3). -/
def root : Nat := 3

/-- `strings.Split` for a one-character separator: splits the character
list at every occurrence of `sep`, keeping empty pieces; splitting the
empty list yields one empty piece. -/
def splitChars (sep : Char) : List Char → List (List Char)
  | [] => [[]]
  | c :: cs =>
    if c = sep then [] :: splitChars sep cs
    else
      match splitChars sep cs with
      | [] => [[c]]
      | p :: ps => (c :: p) :: ps

/-- `splitURL` — splits an URL into parts separated by `pathToken`.
A trailing slash becomes a final `"/"` part.  Mirrors the Go function:
it returns the parts *together with* the error, because the parts are
produced even when an empty interior part makes the URL invalid. -/
def splitURL (url : String) : List String × Option MixErr :=
  match url.data with
  | [] => ([], some .ErrPattern)
  | c :: rest =>
    if c = '/' then
      let parts := splitChars '/' rest
      let parts := if parts.getLast? = some [] then parts.dropLast ++ [['/']] else parts
      if parts.any (· = []) then (parts.map String.mk, some .ErrPattern)
      else (parts.map String.mk, none)
    else ([], some .ErrPattern)

mutual
/-- Trie `node`: kind tag `tid`, optional converter `conv`, optional
reference `methods` into the method-table heap (Go's possibly-nil
`Methods` map), and the child-edge table `children` keyed by segment. -/
inductive node where
  | mk (tid : Nat) (conv : Option convert) (methods : Option Nat) (children : Children) : node

/-- The child-edge table of a node: Go's `map[string]*node`, rendered as
an association list with (by invariant) pairwise distinct keys. -/
inductive Children where
  | nil : Children
  | cons (key : String) (child : node) (rest : Children) : Children
end

deriving instance DecidableEq for node
deriving instance Repr for node

/-- The `tid` field of a node. -/
def node.tid : node → Nat
  | .mk t _ _ _ => t

/-- The `conv` field of a node. -/
def node.conv : node → Option convert
  | .mk _ c _ _ => c

/-- The `Methods` field of a node (a heap reference, `none` = nil map). -/
def node.methods : node → Option Nat
  | .mk _ _ m _ => m

/-- The `Children` field of a node. -/
def node.children : node → Children
  | .mk _ _ _ ch => ch

/-- Map lookup `n.Children[key]`. -/
def Children.lookup : Children → String → Option node
  | .nil, _ => none
  | .cons k v r, key => if k = key then some v else r.lookup key

/-- Map store `children[key] = v`: replaces the first binding of `key`,
or appends a new binding when `key` is absent. -/
def Children.set : Children → String → node → Children
  | .nil, key, v => .cons key v .nil
  | .cons k w r, key, v =>
    if k = key then .cons k v r else .cons k w (r.set key v)

/-- First child of the given type ID, scanning the child table
(the loop body of `node.find`). -/
def Children.findTid : Children → Nat → Option node
  | .nil, _ => none
  | .cons _ v r, t => if v.tid = t then some v else r.findTid t

/-- Number of children of the given type ID. -/
def Children.countTid : Children → Nat → Nat
  | .nil, _ => 0
  | .cons _ v r, t => (if v.tid = t then 1 else 0) + r.countTid t

/-- Whether a key is bound in the child table. -/
def Children.hasKey : Children → String → Bool
  | .nil, _ => false
  | .cons k _ r, key => k = key || r.hasKey key

/-- `node.find` — finds a child node by type ID. -/
def node.find (n : node) (tid : Nat) : Option node :=
  n.children.findTid tid

mutual
/-- `node.deepcopy` — full structural copy of a node; `conv` and
`Methods` store only links (here: the same values/references). -/
def node.deepcopy : node → node
  | .mk t c m ch => .mk t c m (Children.deepcopyAll ch)

/-- `deepcopy` of every entry of a child table. -/
def Children.deepcopyAll : Children → Children
  | .nil => .nil
  | .cons k v r => .cons k v.deepcopy (Children.deepcopyAll r)
end

/-- Replace the children table of a node. -/
def node.setChildren : node → Children → node
  | .mk t c m _, ch => .mk t c m ch

/-- Replace the methods reference of a node. -/
def node.setMethods : node → Option Nat → node
  | .mk t c _ ch, m => .mk t c m ch

/-- `node.insert` — inserts the new node `in_` under key `key` starting
from `n`; returns `none` (Go `false`) if one of the node rules is broken:
a `param` child may not join existing `other` children and vice versa. -/
def node.insert (n : node) (key : String) (in_ : node) : Option node :=
  let found : Option node :=
    if in_.tid = param then n.find other
    else if in_.tid = other then n.find param
    else none
  match found with
  | some _ => none
  | none => some (n.setChildren (n.children.set key in_))

/-- The `tree` structure: owns exactly one root node. -/
structure tree where
  root : node
deriving DecidableEq, Repr

/-- `tree.deepcopy`. -/
def tree.deepcopy (t : tree) : tree :=
  ⟨t.root.deepcopy⟩

/-- Opaque identity of an `http.Handler` object. -/
abbrev HttpHandler := Nat

/-- A method table: Go's `map[string]http.Handler` (only non-nil
handlers are ever stored through the public API). -/
abbrev Table := List (String × HttpHandler)

/-- Lookup `methods[method]` (absent key = Go nil handler). -/
def mlookup : Table → String → Option HttpHandler
  | [], _ => none
  | (k, h) :: r, m => if k = m then some h else mlookup r m

/-- Store `methods[method] = handler`. -/
def minsert : Table → String → HttpHandler → Table
  | [], m, h => [(m, h)]
  | (k, w) :: r, m, h => if k = m then (k, h) :: r else (k, w) :: minsert r m h

/-- The heap of method tables, keyed by reference. -/
abbrev Tables := List (Nat × Table)

/-- Dereference a table reference. -/
def tlookup : Tables → Nat → Option Table
  | [], _ => none
  | (k, t) :: r, n => if k = n then some t else tlookup r n

/-- Write through a table reference (no effect on a dangling reference —
unreachable for well-formed states). -/
def tupdate : Tables → Nat → Table → Tables
  | [], _, _ => []
  | (k, t) :: r, n, tbl => if k = n then (k, tbl) :: r else (k, t) :: tupdate r n tbl

/-- The table a reference points to (dangling references, unreachable for
well-formed states, read as an empty table). -/
def heapTable (tables : Tables) (r : Nat) : Table :=
  (tlookup tables r).getD []

/-- `ServeMixer` — the HTTP request multiplexer, with the method-table
heap (`tables`, `nextRef`) made explicit. -/
structure ServeMixer where
  tree : tree
  converters : List (String × convert)
  tables : Tables
  nextRef : Nat
deriving DecidableEq, Repr

/-- Registry lookup `mix.converters[name]` (nil when absent). -/
def lookupConv : List (String × convert) → String → Option convert
  | [], _ => none
  | (k, c) :: r, name => if k = name then some c else lookupConv r name

/-- `NewServeMixer` — allocates a new mixer: a tree with a root-kind
node, and the converter registry mapping `""` and `"str"` to the single
object `sc` and `"int"` to `ic`. -/
def NewServeMixer : ServeMixer :=
  { tree := ⟨.mk root none none .nil⟩
    converters := [("", .sc), ("str", .sc), ("int", .ic)]
    tables := []
    nextRef := 0 }

/-- The `switch part[:1]` classification in `ServeMixer.insert`: yields
the type ID, the converter for the fresh node `in`, and the child key
(the parameter marker collapses every `:`-segment to the key `":"`).
Errors with `ErrPathParam` when a converter name is unknown.  (A Go
`part` is never empty here when called through the public API; an empty
part classifies as a literal, where Go would panic slicing `part[:1]`.) -/
def classify (convs : List (String × convert)) (part : String) :
    Except MixErr (Nat × Option convert × String) :=
  match part.data with
  | '/' :: _ => .ok (slash, none, part)
  | ':' :: name =>
    match lookupConv convs (String.mk name) with
    | none => .error .ErrPathParam
    | some c => .ok (param, some c, typeToken)
  | _ => .ok (other, none, part)

/-- The loop body of `ServeMixer.insert`, walking/extending the copied
tree one part at a time.  Returns the final subtree, the reference of the
final node's method table, and whether that table is freshly allocated
(with reference `freshRef`).  The Go loop mutates `curr` through
pointers; here the new child is rebuilt into its parent after the
recursive call. -/
def insertLoop (convs : List (String × convert)) (freshRef : Nat) :
    node → List String → Except MixErr (node × Nat × Bool)
  | curr, [] =>
    match curr.methods with
    | some r => .ok (curr, r, false)
    | none => .ok (curr.setMethods (some freshRef), freshRef, true)
  | curr, part :: rest =>
    match classify convs part with
    | .error e => .error e
    | .ok (tid, conv, key) =>
      match curr.children.lookup key with
      | some child =>
        if child.conv ≠ conv then .error .ErrMultiplePathParam
        else
          match insertLoop convs freshRef child rest with
          | .error e => .error e
          | .ok (child', r, b) =>
            .ok (curr.setChildren (curr.children.set key child'), r, b)
      | none =>
        let in_ : node := .mk tid conv none .nil
        match curr.insert key in_ with
        | none => .error .ErrMultiplePathParam
        | some curr' =>
          match insertLoop convs freshRef in_ rest with
          | .error e => .error e
          | .ok (child', r, b) =>
            .ok (curr'.setChildren (curr'.children.set key child'), r, b)

/-- `ServeMixer.insert` — builds the parts into the tree: deep-copies
the live tree, walks/extends the copy, and only on success swaps the
copy in (`*mix.tree = *copy_`) and returns the final node's method-table
reference.  On error the live mixer is returned unchanged (the Go
function returns before the swap). -/
def ServeMixer.insert (mix : ServeMixer) (parts : List String) :
    ServeMixer × Except MixErr Nat :=
  let copy_ := mix.tree.deepcopy
  match insertLoop mix.converters mix.nextRef copy_.root parts with
  | .error e => (mix, .error e)
  | .ok (t, r, fresh) =>
    ({ mix with
        tree := ⟨t⟩
        tables := if fresh then (r, []) :: mix.tables else mix.tables
        nextRef := if fresh then mix.nextRef + 1 else mix.nextRef },
      .ok r)

/-- The fixed method allow-list of `ServeMixer.Handle`. -/
def methodAllowed (method : String) : Bool :=
  method = "GET" || method = "HEAD" || method = "POST" || method = "PUT" ||
  method = "PATCH" || method = "DELETE" || method = "OPTIONS"

/-- `ServeMixer.Handle` — adds a handler by method and pattern.  The Go
function panics on any error; the model returns the mixer state at the
moment of the panic together with the wrapped error kind. -/
def ServeMixer.Handle (mix : ServeMixer) (method pattern : String)
    (handler : Option HttpHandler) : ServeMixer × Option MixErr :=
  if !methodAllowed method then (mix, some .ErrMethod)
  else
    match handler with
    | none => (mix, some .ErrHandler)
    | some h =>
      match splitURL pattern with
      | (_, some _) => (mix, some .ErrPattern)
      | (parts, none) =>
        match mix.insert parts with
        | (mix1, .error e) => (mix1, some e)
        | (mix1, .ok r) =>
          if (mlookup (heapTable mix1.tables r) method).isSome then
            (mix1, some .ErrDuplicate)
          else
            let tbl := minsert (heapTable mix1.tables r) method h
            ({ mix1 with tables := tupdate mix1.tables r tbl }, none)

/-- Captured path parameters, indexed by the order of consumption. -/
abbrev PathParams := List (Nat × Val)

/-- The traversal loop of `ServeMixer.Handler`: exact child match first,
then the `":"` parameter edge with conversion; `i`/`params` mirror the
index counter and the params map. -/
def handlerLoop (tables : Tables) (method : String) :
    node → List String → Nat → PathParams →
    Except MixErr (HttpHandler × Option PathParams)
  | nd, [], _, params =>
    match nd.methods with
    | none => .error .ErrNotFound
    | some r =>
      match mlookup (heapTable tables r) method with
      | none => .error .ErrNotFound
      | some h => .ok (h, if params = [] then none else some params)
  | nd, part :: rest, i, params =>
    match nd.children.lookup part with
    | some child => handlerLoop tables method child rest i params
    | none =>
      match nd.children.lookup typeToken with
      | none => .error .ErrNotFound
      | some child =>
        match child.conv with
        | none => .error .ErrNilConv
        | some cv =>
          match cv.apply part with
          | none => .error .ErrNotFound
          | some val => handlerLoop tables method child rest (i + 1) (params ++ [(i, val)])

/-- `ServeMixer.Handler` — returns the handler to use for the given
request (method and escaped URL path).  The splitting error is discarded
and the produced parts are walked anyway.  The second component models
the context attachment: `some params` exactly when `len(params) != 0`. -/
def ServeMixer.Handler (mix : ServeMixer) (method url : String) :
    Except MixErr (HttpHandler × Option PathParams) :=
  let parts := (splitURL url).1
  handlerLoop mix.tables method mix.tree.root parts 0 []

/-! ## Invariants and reachability -/

/-- The structural conflict rule for the children of one node: a
parameter-kind child and literal-kind (`other`) children never coexist,
at most one parameter-kind child, at most one trailing-slash-kind child. -/
def conflictChk (ch : Children) : Bool :=
  decide (¬(1 ≤ ch.countTid param ∧ 1 ≤ ch.countTid other) ∧
    ch.countTid param ≤ 1 ∧ ch.countTid slash ≤ 1)

mutual
/-- Every node of the tree satisfies the structural conflict rule. -/
def conflictRuleOK : node → Bool
  | .mk _ _ _ ch => conflictChk ch && conflictRuleChildren ch

/-- `conflictRuleOK` for every entry of a child table. -/
def conflictRuleChildren : Children → Bool
  | .nil => true
  | .cons _ v r => conflictRuleOK v && conflictRuleChildren r
end

/-- Edge-label coherence of one child entry: the key is `"/"` exactly
for trailing-slash-kind children and `":"` exactly for parameter-kind
children, and parameter-kind children carry a converter. -/
def coherent (k : String) (c : node) : Bool :=
  decide ((c.tid = slash ↔ k = "/") ∧ (c.tid = param ↔ k = ":") ∧
    (c.tid = param → c.conv.isSome = true))

mutual
/-- Structural invariant of reachable trees: the conflict rule,
edge-label coherence, and distinct child keys, at every node. -/
def invNode : node → Bool
  | .mk _ _ _ ch => conflictChk ch && invChildren ch

/-- `invNode` plus local coherence and key distinctness for every entry
of a child table. -/
def invChildren : Children → Bool
  | .nil => true
  | .cons k v r => coherent k v && !r.hasKey k && invNode v && invChildren r
end

mutual
/-- `P` holds for every method-table reference stored in the tree. -/
def refsAll (P : Nat → Bool) : node → Bool
  | .mk _ _ m ch =>
    (match m with | none => true | some r => P r) && refsAllChildren P ch

/-- `refsAll` for every entry of a child table. -/
def refsAllChildren (P : Nat → Bool) : Children → Bool
  | .nil => true
  | .cons _ v r => refsAll P v && refsAllChildren P r
end

/-- Well-formed mixer states: the tree satisfies the structural
invariant, every stored method-table reference is live in the heap and
below the allocation counter, and the root node has no method table. -/
def wf (mix : ServeMixer) : Bool :=
  invNode mix.tree.root &&
  refsAll (fun r => (tlookup mix.tables r).isSome && decide (r < mix.nextRef))
    mix.tree.root &&
  mix.tree.root.methods == none

/-- A part is a legal key for the trailing-slash classification: if it
begins with `'/'` it is exactly `"/"`.  Every part produced by a
successful `splitURL` satisfies this. -/
def slashPartOK (p : String) : Bool :=
  p.data.head? != some '/' || p == "/"

/-- Mixer states reachable through the public registration API:
`NewServeMixer` and the state left behind by any `Handle` call
(successful or not). -/
inductive Reach : ServeMixer → Prop where
  | new : Reach NewServeMixer
  | handle (mix : ServeMixer) (method pattern : String) (h : Option HttpHandler) :
      Reach mix → Reach (mix.Handle method pattern h).1

/-- The node reached from `n` by following the given child keys. -/
def nodeAt : node → List String → Option node
  | n, [] => some n
  | n, k :: ks =>
    match n.children.lookup k with
    | none => none
    | some c => nodeAt c ks

/-! ## Basic lemmas -/

@[simp] theorem node.tid_mk (t c m ch) : (node.mk t c m ch).tid = t := rfl

@[simp] theorem node.conv_mk (t c m ch) : (node.mk t c m ch).conv = c := rfl

@[simp] theorem node.methods_mk (t c m ch) : (node.mk t c m ch).methods = m := rfl

@[simp] theorem node.children_mk (t c m ch) : (node.mk t c m ch).children = ch := rfl

@[simp] theorem node.tid_setChildren (n : node) (ch : Children) :
    (n.setChildren ch).tid = n.tid := by cases n; rfl

@[simp] theorem node.conv_setChildren (n : node) (ch : Children) :
    (n.setChildren ch).conv = n.conv := by cases n; rfl

@[simp] theorem node.methods_setChildren (n : node) (ch : Children) :
    (n.setChildren ch).methods = n.methods := by cases n; rfl

@[simp] theorem node.children_setChildren (n : node) (ch : Children) :
    (n.setChildren ch).children = ch := by cases n; rfl

@[simp] theorem node.tid_setMethods (n : node) (m : Option Nat) :
    (n.setMethods m).tid = n.tid := by cases n; rfl

@[simp] theorem node.conv_setMethods (n : node) (m : Option Nat) :
    (n.setMethods m).conv = n.conv := by cases n; rfl

@[simp] theorem node.methods_setMethods (n : node) (m : Option Nat) :
    (n.setMethods m).methods = m := by cases n; rfl

@[simp] theorem node.children_setMethods (n : node) (m : Option Nat) :
    (n.setMethods m).children = n.children := by cases n; rfl

@[simp] theorem node.setChildren_setChildren (n : node) (a b : Children) :
    ((n.setChildren a).setChildren b) = n.setChildren b := by cases n; rfl

@[simp] theorem node.setChildren_children (n : node) :
    n.setChildren n.children = n := by cases n; rfl

theorem Children.lookup_set_self : ∀ (ch : Children) (k : String) (v : node),
    (ch.set k v).lookup k = some v
  | .nil, k, v => by simp [Children.set, Children.lookup]
  | .cons k1 v1 r, k, v => by
    by_cases h : k1 = k <;>
      simp [Children.set, Children.lookup, h, Children.lookup_set_self r k v]

theorem Children.set_eq_self_of_lookup : ∀ (ch : Children) (k : String) (v : node),
    ch.lookup k = some v → ch.set k v = ch
  | .nil, k, v => by simp [Children.lookup]
  | .cons k1 v1 r, k, v => by
    by_cases h : k1 = k
    · simp [Children.lookup, Children.set, h]
      intro hv; exact hv.symm
    · simp [Children.lookup, Children.set, h]
      exact Children.set_eq_self_of_lookup r k v

theorem Children.set_set : ∀ (ch : Children) (k : String) (v w : node),
    (ch.set k v).set k w = ch.set k w
  | .nil, k, v, w => by simp [Children.set]
  | .cons k1 v1 r, k, v, w => by
    by_cases h : k1 = k <;>
      simp [Children.set, h, Children.set_set r k v w]

theorem Children.hasKey_set : ∀ (ch : Children) (k x : String) (v : node),
    (ch.set k v).hasKey x = (ch.hasKey x || k = x)
  | .nil, k, x, v => by simp [Children.set, Children.hasKey]
  | .cons k1 v1 r, k, x, v => by
    by_cases h : k1 = k
    · subst h; simp [Children.set, Children.hasKey]; tauto
    · simp [Children.set, Children.hasKey, h, Children.hasKey_set r k x v]
      by_cases hx : k1 = x <;> simp [hx, Bool.or_assoc]

theorem Children.hasKey_eq_isSome_lookup : ∀ (ch : Children) (k : String),
    ch.hasKey k = (ch.lookup k).isSome
  | .nil, k => by simp [Children.hasKey, Children.lookup]
  | .cons k1 v1 r, k => by
    by_cases h : k1 = k <;>
      simp [Children.hasKey, Children.lookup, h, Children.hasKey_eq_isSome_lookup r k]

theorem Children.countTid_set_replace : ∀ (ch : Children) (k : String) (v w : node),
    ch.lookup k = some v → w.tid = v.tid → ∀ t, (ch.set k w).countTid t = ch.countTid t
  | .nil, k, v, w => by simp [Children.lookup]
  | .cons k1 v1 r, k, v, w => by
    by_cases h : k1 = k
    · simp [Children.lookup, Children.set, h, Children.countTid]
      intro hv ht t
      subst hv
      rw [ht]
    · simp [Children.lookup, Children.set, h, Children.countTid]
      intro hv ht t
      rw [Children.countTid_set_replace r k v w hv ht t]

theorem Children.countTid_set_new : ∀ (ch : Children) (k : String) (w : node),
    ch.lookup k = none →
    ∀ t, (ch.set k w).countTid t = ch.countTid t + (if w.tid = t then 1 else 0)
  | .nil, k, w => by simp [Children.lookup, Children.set, Children.countTid]
  | .cons k1 v1 r, k, w => by
    by_cases h : k1 = k
    · simp [Children.lookup, h]
    · simp [Children.lookup, Children.set, h, Children.countTid]
      intro hv t
      rw [Children.countTid_set_new r k w hv t]
      omega

theorem Children.findTid_none_iff : ∀ (ch : Children) (t : Nat),
    ch.findTid t = none ↔ ch.countTid t = 0
  | .nil, t => by simp [Children.findTid, Children.countTid]
  | .cons k1 v1 r, t => by
    by_cases h : v1.tid = t <;>
      simp [Children.findTid, Children.countTid, h, Children.findTid_none_iff r t]

mutual
theorem node.deepcopy_eq : ∀ n : node, n.deepcopy = n
  | .mk t c m ch => by rw [node.deepcopy, Children.deepcopyAll_eq]

theorem Children.deepcopyAll_eq : ∀ ch : Children, ch.deepcopyAll = ch
  | .nil => rfl
  | .cons k v r => by
    rw [Children.deepcopyAll, node.deepcopy_eq, Children.deepcopyAll_eq]
end

theorem tree.deepcopy_id (t : tree) : t.deepcopy = t := by
  cases t; simp [tree.deepcopy, node.deepcopy_eq]

theorem splitChars_ne_nil (sep : Char) : ∀ cs : List Char, splitChars sep cs ≠ []
  | [] => by simp [splitChars]
  | c :: cs => by
    by_cases h : c = sep
    · simp [splitChars, h]
    · simp only [splitChars, if_neg h]
      cases hs : splitChars sep cs <;> simp

theorem splitChars_no_sep (sep : Char) : ∀ (cs : List Char) (p : List Char),
    p ∈ splitChars sep cs → sep ∉ p
  | [], p => by
    simp [splitChars]
    rintro rfl
    simp
  | c :: cs, p => by
    by_cases h : c = sep
    · simp only [splitChars, if_pos h, List.mem_cons]
      rintro (rfl | hp)
      · simp
      · exact splitChars_no_sep sep cs p hp
    · simp only [splitChars, if_neg h]
      cases hs : splitChars sep cs with
      | nil => exact absurd hs (splitChars_ne_nil sep cs)
      | cons q qs =>
        simp only [List.mem_cons]
        rintro (rfl | hp)
        · intro hmem
          rcases List.mem_cons.mp hmem with rfl | hmem2
          · exact h rfl
          · exact splitChars_no_sep sep cs q (hs ▸ List.mem_cons_self q qs) hmem2
        · exact splitChars_no_sep sep cs p (hs ▸ List.mem_cons_of_mem q hp)

theorem slashPartOK_of_no_slash (l : List Char) (h : '/' ∉ l) :
    slashPartOK (String.mk l) = true := by
  cases l with
  | nil => rfl
  | cons c ls =>
    have hc : c ≠ '/' := fun hc => h (hc ▸ List.mem_cons_self c ls)
    simp [slashPartOK, hc]

theorem parts_ok_aux (L : List (List Char)) (hL : L ≠ [])
    (hmem : ∀ l ∈ L, '/' ∉ l ∨ l = ['/']) :
    L.map String.mk ≠ [] ∧ ∀ p ∈ L.map String.mk, slashPartOK p = true := by
  constructor
  · simpa using hL
  · intro p hpmem
    rcases List.mem_map.mp hpmem with ⟨l, hl, rfl⟩
    rcases hmem l hl with hno | rfl
    · exact slashPartOK_of_no_slash l hno
    · rfl

theorem splitURL_ok (url : String) (parts : List String)
    (h : splitURL url = (parts, none)) :
    parts ≠ [] ∧ ∀ p ∈ parts, slashPartOK p = true := by
  unfold splitURL at h
  split at h
  · exact absurd (congrArg Prod.snd h) (by simp)
  · next c rest heq =>
    split at h
    · next hc =>
      subst hc
      dsimp only at h
      split at h
      · next hlast =>
        split at h
        · exact absurd (congrArg Prod.snd h) (by simp)
        · have hp : parts = ((splitChars '/' rest).dropLast ++ [['/']]).map String.mk := by
            have := congrArg Prod.fst h
            simp only at this
            exact this.symm
          rw [hp]
          refine parts_ok_aux _ (by simp) ?_
          intro l hl
          rcases List.mem_append.mp hl with h1 | h2
          · exact Or.inl (splitChars_no_sep '/' rest l (List.dropLast_subset _ h1))
          · simp at h2
            exact Or.inr h2
      · split at h
        · exact absurd (congrArg Prod.snd h) (by simp)
        · have hp : parts = (splitChars '/' rest).map String.mk := by
            have := congrArg Prod.fst h
            simp only at this
            exact this.symm
          rw [hp]
          refine parts_ok_aux _ (splitChars_ne_nil '/' rest) ?_
          intro l hl
          exact Or.inl (splitChars_no_sep '/' rest l hl)
    · exact absurd (congrArg Prod.snd h) (by simp)

theorem splitURL_no_slash_head (url : String) (h : url.data.head? ≠ some '/') :
    splitURL url = ([], some .ErrPattern) := by
  unfold splitURL
  split
  · rfl
  · next c rest heq =>
    have : c ≠ '/' := by
      intro hc
      exact h (by rw [heq, hc]; rfl)
    simp [this]

theorem String.eq_slash_iff (p : String) : p = "/" ↔ p.data = ['/'] := by
  constructor
  · rintro rfl; rfl
  · intro h
    cases p
    cases h
    rfl

theorem String.eq_colon_iff (p : String) : p = ":" ↔ p.data = [':'] := by
  constructor
  · rintro rfl; rfl
  · intro h
    cases p
    cases h
    rfl

theorem classify_ok (convs : List (String × convert)) (part : String)
    (tid : Nat) (conv : Option convert) (key : String)
    (hp : slashPartOK part = true)
    (h : classify convs part = .ok (tid, conv, key)) :
    (tid = slash ∧ conv = none ∧ key = part ∧ part = "/")
    ∨ (tid = param ∧ conv.isSome ∧ key = ":")
    ∨ (tid = other ∧ conv = none ∧ key = part ∧ part ≠ "/" ∧ part ≠ ":") := by
  unfold classify at h
  split at h
  · next heq =>
    left
    injection h with h1
    injection h1 with ht h2
    injection h2 with hc hk
    refine ⟨ht.symm, hc.symm, hk.symm, ?_⟩
    simp only [slashPartOK, heq] at hp
    rcases Bool.or_eq_true_iff.mp hp with h1 | h1
    · simp at h1
    · exact eq_of_beq h1
  · next nm heq =>
    right; left
    cases hl : lookupConv convs (String.mk nm) with
    | none => rw [hl] at h; cases h
    | some c =>
      rw [hl] at h
      injection h with h1
      injection h1 with ht h2
      injection h2 with hc hk
      exact ⟨ht.symm, by rw [← hc]; rfl, hk.symm⟩
  · next h1 h2 =>
    right; right
    injection h with hh
    injection hh with ht hh2
    injection hh2 with hc hk
    refine ⟨ht.symm, hc.symm, hk.symm, ?_, ?_⟩
    · intro hs
      exact h1 [] (((String.eq_slash_iff part).mp hs).symm ▸ rfl)
    · intro hs
      exact h2 [] (((String.eq_colon_iff part).mp hs).symm ▸ rfl)

theorem node.insert_eq_some (n : node) (key : String) (in_ : node) (n' : node)
    (h : n.insert key in_ = some n') :
    n' = n.setChildren (n.children.set key in_)
    ∧ (in_.tid = param → n.find other = none)
    ∧ (in_.tid = other → n.find param = none) := by
  unfold node.insert at h
  dsimp only at h
  split at h
  · cases h
  · next hfound =>
    injection h with h1
    refine ⟨h1.symm, ?_, ?_⟩
    · intro hp
      rw [if_pos hp] at hfound
      exact hfound
    · intro ho
      have hne : in_.tid ≠ param := by rw [ho]; simp [other, param]
      rw [if_neg hne, if_pos ho] at hfound
      exact hfound

theorem insertLoop_root_fields (convs : List (String × convert)) (f : Nat)
    (curr : node) (parts : List String) (t' : node) (r : Nat) (b : Bool)
    (h : insertLoop convs f curr parts = .ok (t', r, b)) :
    t'.tid = curr.tid ∧ t'.conv = curr.conv := by
  cases parts with
  | nil =>
    simp only [insertLoop] at h
    split at h
    · injection h with h1
      injection h1 with h2
      rw [← h2]
      exact ⟨rfl, rfl⟩
    · injection h with h1
      injection h1 with h2
      rw [← h2]
      simp
  | cons part rest =>
    simp only [insertLoop] at h
    split at h
    · cases h
    · split at h
      · split at h
        · cases h
        · split at h
          · cases h
          · injection h with h1
            injection h1 with h2
            rw [← h2]
            simp
      · split at h
        · cases h
        · next curr' hins =>
          split at h
          · cases h
          · injection h with h1
            injection h1 with h2
            rw [← h2]
            obtain ⟨hc, -, -⟩ := node.insert_eq_some _ _ _ _ hins
            subst hc
            simp

theorem insertLoop_keeps_methods (convs : List (String × convert)) (f : Nat)
    (curr : node) (part : String) (rest : List String) (t' : node) (r : Nat) (b : Bool)
    (h : insertLoop convs f curr (part :: rest) = .ok (t', r, b)) :
    t'.methods = curr.methods := by
  simp only [insertLoop] at h
  split at h
  · cases h
  · split at h
    · split at h
      · cases h
      · split at h
        · cases h
        · injection h with h1
          injection h1 with h2
          rw [← h2]
          simp
    · split at h
      · cases h
      · next curr' hins =>
        split at h
        · cases h
        · injection h with h1
          injection h1 with h2
          rw [← h2]
          obtain ⟨hc, -, -⟩ := node.insert_eq_some _ _ _ _ hins
          subst hc
          simp

theorem insertLoop_fresh_node (convs : List (String × convert)) (f : Nat) :
    ∀ (parts : List String) (curr : node) (t' : node) (r : Nat) (b : Bool),
    insertLoop convs f curr parts = .ok (t', r, b) →
    curr.methods = none → curr.children = .nil → b = true ∧ r = f
  | [], curr, t', r, b, h, hm, _ => by
    simp only [insertLoop, hm] at h
    injection h with h1
    injection h1 with h2 h3
    injection h3 with h4 h5
    exact ⟨h5.symm, h4.symm⟩
  | part :: rest, curr, t', r, b, h, hm, hch => by
    simp only [insertLoop] at h
    split at h
    · cases h
    · split at h
      · next hlk =>
        rw [hch] at hlk
        simp [Children.lookup] at hlk
      · split at h
        · cases h
        · split at h
          · cases h
          · next hrec =>
            obtain ⟨hb, hr⟩ := insertLoop_fresh_node convs f rest _ _ _ _ hrec rfl rfl
            injection h with h1
            injection h1 with h2 h3
            injection h3 with h4 h5
            exact ⟨h5 ▸ hb, h4 ▸ hr⟩

theorem insertLoop_false_eq (convs : List (String × convert)) (f : Nat) :
    ∀ (parts : List String) (curr : node) (t' : node) (r : Nat),
    insertLoop convs f curr parts = .ok (t', r, false) → t' = curr
  | [], curr, t', r, h => by
    simp only [insertLoop] at h
    split at h
    · injection h with h1
      injection h1 with h2
      exact h2.symm
    · injection h with h1
      injection h1 with h2 h3
      injection h3 with h4 h5
      cases h5
  | part :: rest, curr, t', r, h => by
    simp only [insertLoop] at h
    split at h
    · cases h
    · split at h
      · next child hlk =>
        split at h
        · cases h
        · split at h
          · cases h
          · next child2 r2 b2 hrec =>
            injection h with h1
            injection h1 with h2 h3
            injection h3 with h4 h5
            rw [h5] at hrec
            have := insertLoop_false_eq convs f rest _ _ _ hrec
            subst this
            rw [← h2, Children.set_eq_self_of_lookup _ _ _ hlk]
            simp
      · split at h
        · cases h
        · next curr' hins =>
          split at h
          · cases h
          · next child2 r2 b2 hrec =>
            injection h with h1
            injection h1 with h2 h3
            injection h3 with h4 h5
            rw [h5] at hrec
            obtain ⟨hb, -⟩ := insertLoop_fresh_node convs f rest _ _ _ _ hrec rfl rfl
            cases hb

theorem insertLoop_idem (convs : List (String × convert)) :
    ∀ (parts : List String) (f f' : Nat) (curr t' : node) (r : Nat) (b : Bool),
    insertLoop convs f curr parts = .ok (t', r, b) →
    insertLoop convs f' t' parts = .ok (t', r, false)
  | [], f, f', curr, t', r, b, h => by
    simp only [insertLoop] at h ⊢
    split at h
    · next r0 hm =>
      injection h with h1
      injection h1 with h2 h3
      injection h3 with h4 h5
      subst h2
      rw [hm, h4]
    · next hm =>
      injection h with h1
      injection h1 with h2 h3
      injection h3 with h4 h5
      subst h2
      rw [node.methods_setMethods, h4]
  | part :: rest, f, f', curr, t', r, b, h => by
    simp only [insertLoop] at h
    split at h
    · cases h
    · next tid cnv key hcl =>
      split at h
      · next child hlk =>
        split at h
        · cases h
        · next hcg =>
          split at h
          · cases h
          · next child2 r2 b2 hrec =>
            injection h with h1
            injection h1 with h2 h3
            injection h3 with h4 h5
            subst h2 h4
            have hih := insertLoop_idem convs rest f f' child child2 r2 b2 hrec
            have hcc := (insertLoop_root_fields convs f child rest child2 r2 b2 hrec).2
            simp only [insertLoop, hcl, node.children_setChildren,
              Children.lookup_set_self, node.setChildren_setChildren,
              Children.set_set]
            rw [if_neg (by rw [hcc]; exact hcg)]
            rw [hih]
      · next hlk =>
        split at h
        · cases h
        · next curr' hins =>
          split at h
          · cases h
          · next child2 r2 b2 hrec =>
            injection h with h1
            injection h1 with h2 h3
            injection h3 with h4 h5
            subst h2 h4
            obtain ⟨hc, -, -⟩ := node.insert_eq_some _ _ _ _ hins
            subst hc
            have hih := insertLoop_idem convs rest f f' _ child2 r2 b2 hrec
            have hcc := (insertLoop_root_fields convs f _ rest child2 r2 b2 hrec).2
            simp only [node.conv_mk] at hcc
            simp only [insertLoop, hcl, node.children_setChildren,
              Children.lookup_set_self, node.setChildren_setChildren,
              Children.set_set]
            rw [if_neg (by rw [hcc]; simp)]
            rw [hih]

theorem insertLoop_true_ref (convs : List (String × convert)) (f : Nat) :
    ∀ (parts : List String) (curr t' : node) (r : Nat),
    insertLoop convs f curr parts = .ok (t', r, true) → r = f
  | [], curr, t', r, h => by
    simp only [insertLoop] at h
    split at h
    · injection h with h1
      injection h1 with h2 h3
      injection h3 with h4 h5
      cases h5
    · injection h with h1
      injection h1 with h2 h3
      injection h3 with h4 h5
      exact h4.symm
  | part :: rest, curr, t', r, h => by
    simp only [insertLoop] at h
    split at h
    · cases h
    · split at h
      · split at h
        · cases h
        · split at h
          · cases h
          · next child2 r2 b2 hrec =>
            injection h with h1
            injection h1 with h2 h3
            injection h3 with h4 h5
            rw [h5] at hrec
            exact h4 ▸ insertLoop_true_ref convs f rest _ _ _ hrec
      · split at h
        · cases h
        · split at h
          · cases h
          · next child2 r2 b2 hrec =>
            injection h with h1
            injection h1 with h2 h3
            injection h3 with h4 h5
            rw [h5] at hrec
            exact h4 ▸ insertLoop_true_ref convs f rest _ _ _ hrec

theorem tree.mk_root (t : tree) : (⟨t.root⟩ : tree) = t := by cases t; rfl

theorem ServeMixer.mk_fields (m : ServeMixer) :
    ({ tree := m.tree, converters := m.converters, tables := m.tables,
       nextRef := m.nextRef } : ServeMixer) = m := by cases m; rfl

theorem ServeMixer.insert_eq (mix : ServeMixer) (parts : List String) :
    mix.insert parts =
      match insertLoop mix.converters mix.nextRef mix.tree.root parts with
      | .error e => (mix, .error e)
      | .ok (t, r, fresh) =>
        ({ mix with
            tree := ⟨t⟩
            tables := if fresh then (r, []) :: mix.tables else mix.tables
            nextRef := if fresh then mix.nextRef + 1 else mix.nextRef },
          .ok r) := by
  unfold ServeMixer.insert
  rw [tree.deepcopy_id]

theorem ServeMixer.insert_error_state (mix : ServeMixer) (parts : List String)
    (mix1 : ServeMixer) (e : MixErr) (h : mix.insert parts = (mix1, .error e)) :
    mix1 = mix := by
  rw [ServeMixer.insert_eq] at h
  split at h
  · injection h with h1 h2
    exact h1.symm
  · injection h with h1 h2
    cases h2

theorem ServeMixer.insert_ok_spec (mix : ServeMixer) (parts : List String)
    (mix1 : ServeMixer) (r : Nat) (h : mix.insert parts = (mix1, .ok r)) :
    ∃ t b, insertLoop mix.converters mix.nextRef mix.tree.root parts = .ok (t, r, b)
      ∧ mix1 = { mix with
          tree := ⟨t⟩
          tables := if b then (r, []) :: mix.tables else mix.tables
          nextRef := if b then mix.nextRef + 1 else mix.nextRef } := by
  rw [ServeMixer.insert_eq] at h
  split at h
  · injection h with h1 h2
    cases h2
  · next t r0 b hl =>
    injection h with h1 h2
    injection h2 with h3
    subst h3
    exact ⟨t, b, hl, h1.symm⟩

theorem ServeMixer.insert_idem (mix : ServeMixer) (parts : List String)
    (mix1 : ServeMixer) (r : Nat) (h : mix.insert parts = (mix1, .ok r)) :
    mix1.insert parts = (mix1, .ok r) := by
  obtain ⟨t, b, hl, hmix1⟩ := ServeMixer.insert_ok_spec mix parts mix1 r h
  have hconv : mix1.converters = mix.converters := by rw [hmix1]
  have htree : mix1.tree = ⟨t⟩ := by rw [hmix1]
  have hidem := insertLoop_idem mix.converters parts mix.nextRef mix1.nextRef
    mix.tree.root t r b hl
  rw [ServeMixer.insert_eq, hconv, htree]
  dsimp only
  rw [hidem]
  dsimp only
  rw [if_neg Bool.false_ne_true, if_neg Bool.false_ne_true, ← htree, ← hconv]

theorem mlookup_minsert_self : ∀ (tbl : Table) (m : String) (h : HttpHandler),
    mlookup (minsert tbl m h) m = some h
  | [], m, h => by simp [minsert, mlookup]
  | (k, w) :: r, m, h => by
    by_cases hk : k = m <;>
      simp [minsert, mlookup, hk, mlookup_minsert_self r m h]

theorem tlookup_tupdate_self : ∀ (T : Tables) (r : Nat) (tbl : Table),
    (tlookup T r).isSome → tlookup (tupdate T r tbl) r = some tbl
  | [], r, tbl => by simp [tlookup]
  | (k, t) :: rest, r, tbl => by
    by_cases hk : k = r
    · simp [tlookup, tupdate, hk]
    · simp only [tlookup, tupdate, if_neg hk]
      exact tlookup_tupdate_self rest r tbl

theorem tlookup_tupdate_isSome : ∀ (T : Tables) (r : Nat) (tbl : Table) (x : Nat),
    (tlookup (tupdate T r tbl) x).isSome = (tlookup T x).isSome
  | [], r, tbl, x => by simp [tlookup, tupdate]
  | (k, t) :: rest, r, tbl, x => by
    by_cases hk : k = r
    · subst hk
      by_cases hx : k = x <;> simp [tlookup, tupdate, hx]
    · simp only [tupdate, if_neg hk]
      by_cases hx : k = x <;>
        simp [tlookup, hx, tlookup_tupdate_isSome rest r tbl x]

theorem ServeMixer.handle_fail_state (mix : ServeMixer) (method pattern : String)
    (hd : Option HttpHandler) (mix2 : ServeMixer) (e : MixErr)
    (h : mix.Handle method pattern hd = (mix2, some e)) : mix2 = mix := by
  unfold ServeMixer.Handle at h
  split at h
  · injection h with h1 h2
    exact h1.symm
  · split at h
    · injection h with h1 h2
      exact h1.symm
    · split at h
      · injection h with h1 h2
        exact h1.symm
      · next parts hsplit =>
        split at h
        · next mix1 e1 hins =>
          injection h with h1 h2
          rw [← h1]
          exact ServeMixer.insert_error_state mix parts mix1 e1 hins
        · next mix1 r hins =>
          split at h
          · next hdup =>
            injection h with h1 h2
            rw [← h1]
            obtain ⟨t, b, hl, hmix1⟩ := ServeMixer.insert_ok_spec mix parts mix1 r hins
            cases b with
            | true =>
              rw [hmix1] at hdup
              simp [heapTable, tlookup, mlookup] at hdup
            | false =>
              have ht := insertLoop_false_eq _ _ _ _ _ _ hl
              rw [hmix1, ht]
              simp [tree.mk_root]
          · cases h

theorem band_true {a b : Bool} (h : (a && b) = true) : a = true ∧ b = true := by
  simp at h; exact h

theorem refsAll_children (P : Nat → Bool) (n : node) (h : refsAll P n = true) :
    refsAllChildren P n.children = true := by
  cases n with
  | mk t c m ch =>
    simp only [refsAll] at h
    exact (band_true h).2

theorem refsAll_methods (P : Nat → Bool) (n : node) (h : refsAll P n = true)
    (r : Nat) (hm : n.methods = some r) : P r = true := by
  cases n with
  | mk t c m ch =>
    simp only [refsAll] at h
    have := (band_true h).1
    simp only [node.methods_mk] at hm
    rw [hm] at this
    exact this

theorem refsAllChildren_lookup (P : Nat → Bool) :
    ∀ (ch : Children) (key : String) (child : node),
    refsAllChildren P ch = true → ch.lookup key = some child → refsAll P child = true
  | .nil, key, child => by simp [Children.lookup]
  | .cons k v r, key, child => by
    intro h hl
    rw [refsAllChildren] at h
    obtain ⟨h1, h2⟩ := band_true h
    rw [Children.lookup] at hl
    by_cases hk : k = key
    · rw [if_pos hk] at hl
      injection hl with hl
      exact hl ▸ h1
    · rw [if_neg hk] at hl
      exact refsAllChildren_lookup P r key child h2 hl

theorem insertLoop_old_ref (P : Nat → Bool) (convs : List (String × convert)) (f : Nat) :
    ∀ (parts : List String) (curr t' : node) (r : Nat),
    refsAll P curr = true → insertLoop convs f curr parts = .ok (t', r, false) →
    P r = true
  | [], curr, t', r, hrefs, h => by
    simp only [insertLoop] at h
    split at h
    · next r0 hm =>
      injection h with h1
      injection h1 with h2 h3
      injection h3 with h4 h5
      exact h4 ▸ refsAll_methods P curr hrefs r0 hm
    · injection h with h1
      injection h1 with h2 h3
      injection h3 with h4 h5
      cases h5
  | part :: rest, curr, t', r, hrefs, h => by
    simp only [insertLoop] at h
    split at h
    · cases h
    · split at h
      · next child hlk =>
        split at h
        · cases h
        · split at h
          · cases h
          · next child2 r2 b2 hrec =>
            injection h with h1
            injection h1 with h2 h3
            injection h3 with h4 h5
            rw [h5] at hrec
            have hch := refsAllChildren_lookup P curr.children _ child
              (refsAll_children P curr hrefs) hlk
            exact h4 ▸ insertLoop_old_ref P convs f rest child _ _ hch hrec
      · split at h
        · cases h
        · split at h
          · cases h
          · next child2 r2 b2 hrec =>
            injection h with h1
            injection h1 with h2 h3
            injection h3 with h4 h5
            rw [h5] at hrec
            obtain ⟨hb, -⟩ := insertLoop_fresh_node convs f rest _ _ _ _ hrec rfl rfl
            cases hb

theorem wf_spec (mix : ServeMixer) (h : wf mix = true) :
    invNode mix.tree.root = true ∧
    refsAll (fun r => (tlookup mix.tables r).isSome && decide (r < mix.nextRef))
      mix.tree.root = true ∧
    mix.tree.root.methods = none := by
  rw [wf] at h
  obtain ⟨h12, h3⟩ := band_true h
  obtain ⟨h1, h2⟩ := band_true h12
  exact ⟨h1, h2, by simpa using h3⟩

theorem ServeMixer.handle_ok_spec (mix : ServeMixer) (method pattern : String)
    (h0 : HttpHandler) (mix1 : ServeMixer)
    (h : mix.Handle method pattern (some h0) = (mix1, none)) :
    methodAllowed method = true ∧
    ∃ parts r mixa, splitURL pattern = (parts, none) ∧
      mix.insert parts = (mixa, .ok r) ∧
      mlookup (heapTable mixa.tables r) method = none ∧
      mix1 = { mixa with tables := tupdate mixa.tables r (minsert (heapTable mixa.tables r) method h0) } := by
  unfold ServeMixer.Handle at h
  split at h
  · cases h
  · next hma =>
    have hm : methodAllowed method = true := by
      revert hma
      cases methodAllowed method <;> simp
    refine ⟨hm, ?_⟩
    split at h
    · cases h
    · next h1 =>
      injection h1 with h1
      subst h1
      split at h
      · cases h
      · next parts hsplit =>
        split at h
        · cases h
        · next mixa r hins =>
          split at h
          · cases h
          · next hdup =>
            injection h with ha hb
            refine ⟨parts, r, mixa, hsplit, hins, ?_, ha.symm⟩
            revert hdup
            cases mlookup (heapTable mixa.tables r) method <;> simp

theorem ServeMixer.handle_duplicate (mix : ServeMixer) (method pattern : String)
    (h0 h1 : HttpHandler) (mix1 : ServeMixer) (hwf : wf mix = true)
    (h : mix.Handle method pattern (some h0) = (mix1, none)) :
    mix1.Handle method pattern (some h1) = (mix1, some .ErrDuplicate) := by
  obtain ⟨hm, parts, r, mixa, hsplit, hins, hnodup, hmix1⟩ :=
    ServeMixer.handle_ok_spec mix method pattern h0 mix1 h
  obtain ⟨t, b, hl, hmixa⟩ := ServeMixer.insert_ok_spec mix parts mixa r hins
  -- the live reference r is present in the heap of mixa
  have hlive : (tlookup mixa.tables r).isSome = true := by
    cases b with
    | true =>
      have : r = mix.nextRef := insertLoop_true_ref _ _ _ _ _ _ hl
      rw [hmixa]
      simp [tlookup]
    | false =>
      obtain ⟨-, hrefs, -⟩ := wf_spec mix hwf
      have hp := insertLoop_old_ref _ _ _ _ _ _ _ hrefs hl
      rw [hmixa]
      simp only [if_neg Bool.false_ne_true]
      exact (band_true hp).1
  -- the second insert re-resolves to the same reference without mutation
  have hins2 : mix1.insert parts = (mix1, .ok r) := by
    have hidem := insertLoop_idem mix.converters parts mix.nextRef mix1.nextRef
      mix.tree.root t r b hl
    have hconv : mix1.converters = mix.converters := by rw [hmix1, hmixa]
    have htreeroot : mix1.tree.root = t := by rw [hmix1, hmixa]
    rw [ServeMixer.insert_eq, hconv, htreeroot]
    rw [hidem]
    dsimp only
    rw [if_neg Bool.false_ne_true, if_neg Bool.false_ne_true]
    have hte : tree.mk t = mix1.tree := by rw [hmix1, hmixa]
    rw [hte, ← hconv, ServeMixer.mk_fields]
  -- the handler written by the first call is found, so the slot is occupied
  have htables : mix1.tables =
      tupdate mixa.tables r (minsert (heapTable mixa.tables r) method h0) := by
    rw [hmix1]
  have hheap : heapTable mix1.tables r =
      minsert (heapTable mixa.tables r) method h0 := by
    rw [htables, heapTable, tlookup_tupdate_self mixa.tables r _ hlive]
    rfl
  unfold ServeMixer.Handle
  simp only [hm, Bool.not_true, hsplit, hins2, hheap, mlookup_minsert_self]
  simp

theorem conflictChk_iff (ch : Children) : conflictChk ch = true ↔
    (¬(1 ≤ ch.countTid param ∧ 1 ≤ ch.countTid other) ∧
      ch.countTid param ≤ 1 ∧ ch.countTid slash ≤ 1) := by
  simp [conflictChk]
  intro _ _
  omega

theorem coherent_iff (k : String) (v : node) : coherent k v = true ↔
    ((v.tid = slash ↔ k = "/") ∧ (v.tid = param ↔ k = ":") ∧
      (v.tid = param → v.conv.isSome = true)) := by
  simp [coherent]
  tauto

theorem coherent_congr (k : String) (v v' : node) (h1 : v'.tid = v.tid)
    (h2 : v'.conv = v.conv) : coherent k v' = coherent k v := by
  simp [coherent, h1, h2]

theorem invNode_eq (t : Nat) (c : Option convert) (m : Option Nat) (ch : Children) :
    invNode (.mk t c m ch) = (conflictChk ch && invChildren ch) := by
  simp only [invNode]

theorem invChildren_eq (k : String) (v : node) (r : Children) :
    invChildren (.cons k v r) =
      (coherent k v && !r.hasKey k && invNode v && invChildren r) := by
  simp only [invChildren]

theorem invNode_setMethods (n : node) (m : Option Nat) :
    invNode (n.setMethods m) = invNode n := by
  cases n
  simp only [node.setMethods, invNode]

theorem invNode_spec (n : node) (h : invNode n = true) :
    conflictChk n.children = true ∧ invChildren n.children = true := by
  cases n
  rw [invNode_eq] at h
  exact band_true h

theorem invNode_of (n : node) (h1 : conflictChk n.children = true)
    (h2 : invChildren n.children = true) : invNode n = true := by
  cases n
  rw [invNode_eq]
  simp only [node.children_mk] at h1 h2
  rw [h1, h2]
  rfl

theorem invChildren_lookup : ∀ (ch : Children) (key : String) (child : node),
    invChildren ch = true → ch.lookup key = some child →
    invNode child = true ∧ coherent key child = true
  | .nil, key, child => by simp [Children.lookup]
  | .cons k v r, key, child => by
    intro h hl
    rw [invChildren_eq] at h
    obtain ⟨h1, h4⟩ := band_true h
    obtain ⟨h2, h3⟩ := band_true h1
    obtain ⟨h5, h6⟩ := band_true h2
    rw [Children.lookup] at hl
    by_cases hk : k = key
    · rw [if_pos hk] at hl
      injection hl with hl
      subst hl hk
      exact ⟨h3, h5⟩
    · rw [if_neg hk] at hl
      exact invChildren_lookup r key child h4 hl

theorem invChildren_set_replace :
    ∀ (ch : Children) (key : String) (child child' : node),
    invChildren ch = true → ch.lookup key = some child →
    invNode child' = true → coherent key child' = true →
    invChildren (ch.set key child') = true
  | .nil, key, child, child' => by simp [Children.lookup]
  | .cons k v r, key, child, child' => by
    intro h hl hn hc
    rw [invChildren_eq] at h
    obtain ⟨h1, h4⟩ := band_true h
    obtain ⟨h2, h3⟩ := band_true h1
    obtain ⟨h5, h6⟩ := band_true h2
    rw [Children.lookup] at hl
    by_cases hk : k = key
    · subst hk
      rw [Children.set, if_pos rfl, invChildren_eq]
      rw [hc, h6, hn, h4]
      rfl
    · rw [if_neg hk] at hl
      rw [Children.set, if_neg hk, invChildren_eq]
      rw [h5, h3, invChildren_set_replace r key child child' h4 hl hn hc]
      have : (r.set key child').hasKey k = r.hasKey k := by
        rw [Children.hasKey_set]
        have : ¬key = k := fun hh => hk hh.symm
        simp [this]
      rw [this]
      simp only [h6]
      rfl

theorem invChildren_set_new :
    ∀ (ch : Children) (key : String) (child' : node),
    invChildren ch = true → ch.lookup key = none →
    invNode child' = true → coherent key child' = true →
    invChildren (ch.set key child') = true
  | .nil, key, child' => by
    intro h hl hn hc
    rw [Children.set, invChildren_eq]
    rw [hc, hn]
    simp [Children.hasKey, invChildren]
  | .cons k v r, key, child' => by
    intro h hl hn hc
    rw [invChildren_eq] at h
    obtain ⟨h1, h4⟩ := band_true h
    obtain ⟨h2, h3⟩ := band_true h1
    obtain ⟨h5, h6⟩ := band_true h2
    rw [Children.lookup] at hl
    by_cases hk : k = key
    · rw [if_pos hk] at hl
      cases hl
    · rw [if_neg hk] at hl
      rw [Children.set, if_neg hk, invChildren_eq]
      rw [h5, h3, invChildren_set_new r key child' h4 hl hn hc]
      have : (r.set key child').hasKey k = r.hasKey k := by
        rw [Children.hasKey_set]
        have : ¬key = k := fun hh => hk hh.symm
        simp [this]
      rw [this]
      simp only [h6]
      rfl

theorem countTid_zero_of_no_key (tv : Nat) (kv : String)
    (hkv : ∀ (k : String) (v : node), coherent k v = true → v.tid = tv → k = kv) :
    ∀ (ch : Children), invChildren ch = true → ch.lookup kv = none →
    ch.countTid tv = 0
  | .nil, _, _ => by simp [Children.countTid]
  | .cons k v r, h, hl => by
    rw [invChildren_eq] at h
    obtain ⟨h1, h4⟩ := band_true h
    obtain ⟨h2, h3⟩ := band_true h1
    obtain ⟨h5, h6⟩ := band_true h2
    rw [Children.lookup] at hl
    by_cases hk : k = kv
    · rw [if_pos hk] at hl
      cases hl
    · rw [if_neg hk] at hl
      rw [Children.countTid]
      have hvt : v.tid ≠ tv := fun hvt => hk (hkv k v h5 hvt)
      rw [if_neg hvt, countTid_zero_of_no_key tv kv hkv r h4 hl]

theorem conflictChk_set_replace (ch : Children) (key : String) (child child' : node)
    (hl : ch.lookup key = some child) (ht : child'.tid = child.tid) :
    conflictChk (ch.set key child') = conflictChk ch := by
  simp only [conflictChk, Children.countTid_set_replace ch key child child' hl ht]

theorem invNode_fresh (tid : Nat) (cnv : Option convert) :
    invNode (.mk tid cnv none .nil) = true := by
  rw [invNode_eq]
  simp [conflictChk, Children.countTid, invChildren]

theorem invNode_after_new_child (curr : node) (key : String) (tid : Nat)
    (cnv : Option convert) (child2 : node)
    (hchk : conflictChk curr.children = true)
    (hchl : invChildren curr.children = true)
    (hlk : curr.children.lookup key = none)
    (hinv2 : invNode child2 = true) (hti : child2.tid = tid) (hco : child2.conv = cnv)
    (hclass : (tid = slash ∧ cnv = none ∧ key = "/")
      ∨ (tid = param ∧ cnv.isSome = true ∧ key = ":")
      ∨ (tid = other ∧ cnv = none ∧ key ≠ "/" ∧ key ≠ ":"))
    (hg1 : tid = param → curr.find other = none)
    (hg2 : tid = other → curr.find param = none) :
    invNode (curr.setChildren (curr.children.set key child2)) = true := by
  have hcnt := Children.countTid_set_new curr.children key child2 hlk
  rw [conflictChk_iff] at hchk
  have hcoh : coherent key child2 = true := by
    rw [coherent_iff]
    rcases hclass with ⟨h1, h2, h3⟩ | ⟨h1, h2, h3⟩ | ⟨h1, h2, h3, h4⟩
    · refine ⟨?_, ?_, ?_⟩
      · rw [hti, h1, h3]; simp
      · rw [hti, h1, h3]
        constructor
        · intro hx; exact absurd hx (by decide)
        · intro hx; exact absurd hx (by decide)
      · rw [hti, h1]; intro hx; exact absurd hx (by decide)
    · refine ⟨?_, ?_, ?_⟩
      · rw [hti, h1, h3]
        constructor
        · intro hx; exact absurd hx (by decide)
        · intro hx; exact absurd hx (by decide)
      · rw [hti, h1, h3]; simp
      · intro _; rw [hco]; exact h2
    · refine ⟨?_, ?_, ?_⟩
      · rw [hti, h1]
        constructor
        · intro hx; exact absurd hx (by decide)
        · intro hx; exact absurd hx h3
      · rw [hti, h1]
        constructor
        · intro hx; exact absurd hx (by decide)
        · intro hx; exact absurd hx h4
      · rw [hti, h1]; intro hx; exact absurd hx (by decide)
  refine invNode_of _ ?_ ?_
  · rw [node.children_setChildren, conflictChk_iff,
      hcnt param, hcnt other, hcnt slash, hti]
    rcases hclass with ⟨h1, h2, h3⟩ | ⟨h1, h2, h3⟩ | ⟨h1, h2, h3, h4⟩
    · -- a trailing-slash child joins: no slash child existed under key "/"
      have hzs : curr.children.countTid slash = 0 := by
        refine countTid_zero_of_no_key slash "/" ?_ curr.children hchl (h3 ▸ hlk)
        intro k v hcv hvt
        exact ((coherent_iff k v).mp hcv).1.mp hvt
      rw [h1, if_neg (show ¬slash = param from by decide),
        if_neg (show ¬slash = other from by decide), if_pos rfl, hzs]
      omega
    · -- a parameter child joins: no other child (rule) and no param child (key absent)
      have hzo : curr.children.countTid other = 0 := by
        rw [← Children.findTid_none_iff]
        exact hg1 h1
      have hzp : curr.children.countTid param = 0 := by
        refine countTid_zero_of_no_key param ":" ?_ curr.children hchl (h3 ▸ hlk)
        intro k v hcv hvt
        exact ((coherent_iff k v).mp hcv).2.1.mp hvt
      rw [h1, if_pos rfl, if_neg (show ¬param = other from by decide),
        if_neg (show ¬param = slash from by decide), hzo, hzp]
      omega
    · -- a literal child joins: no param child (rule)
      have hzp : curr.children.countTid param = 0 := by
        rw [← Children.findTid_none_iff]
        exact hg2 h1
      rw [h1, if_neg (show ¬other = param from by decide), if_pos rfl,
        if_neg (show ¬other = slash from by decide), hzp]
      omega
  · rw [node.children_setChildren]
    exact invChildren_set_new curr.children key child2 hchl hlk hinv2 hcoh

theorem insertLoop_inv (convs : List (String × convert)) (f : Nat) :
    ∀ (parts : List String) (curr t' : node) (r : Nat) (b : Bool),
    invNode curr = true → (∀ p ∈ parts, slashPartOK p = true) →
    insertLoop convs f curr parts = .ok (t', r, b) → invNode t' = true
  | [], curr, t', r, b, hcur, hparts, h => by
    simp only [insertLoop] at h
    split at h
    · injection h with h1
      injection h1 with h2 h3
      exact h2 ▸ hcur
    · injection h with h1
      injection h1 with h2 h3
      rw [← h2, invNode_setMethods]
      exact hcur
  | part :: rest, curr, t', r, b, hcur, hparts, h => by
    have hpart : slashPartOK part = true := hparts part (List.mem_cons_self part rest)
    have hrest : ∀ p ∈ rest, slashPartOK p = true :=
      fun p hp => hparts p (List.mem_cons_of_mem part hp)
    obtain ⟨hchk, hchl⟩ := invNode_spec curr hcur
    simp only [insertLoop] at h
    split at h
    · cases h
    · next tid cnv key hcl =>
      split at h
      · next child hlk =>
        split at h
        · cases h
        · next hcg =>
          split at h
          · cases h
          · next child2 r2 b2 hrec =>
            injection h with h1
            injection h1 with h2 h3
            obtain ⟨hinvc, hcohc⟩ := invChildren_lookup curr.children key child hchl hlk
            have hinv2 := insertLoop_inv convs f rest child child2 r2 b2 hinvc hrest hrec
            obtain ⟨hti, hco⟩ := insertLoop_root_fields convs f child rest child2 r2 b2 hrec
            rw [← h2]
            refine invNode_of _ ?_ ?_
            · rw [node.children_setChildren,
                conflictChk_set_replace curr.children key child child2 hlk hti]
              exact hchk
            · rw [node.children_setChildren]
              exact invChildren_set_replace curr.children key child child2 hchl hlk
                hinv2 (by rw [coherent_congr key child child2 hti hco]; exact hcohc)
      · next hlk =>
        split at h
        · cases h
        · next curr2 hins =>
          split at h
          · cases h
          · next child2 r2 b2 hrec =>
            injection h with h1
            injection h1 with h2 h3
            obtain ⟨hcshape, hg1, hg2⟩ := node.insert_eq_some _ _ _ _ hins
            subst hcshape
            have hinv2 := insertLoop_inv convs f rest _ child2 r2 b2
              (invNode_fresh tid cnv) hrest hrec
            obtain ⟨hti, hco⟩ := insertLoop_root_fields convs f _ rest child2 r2 b2 hrec
            simp only [node.tid_mk, node.conv_mk] at hti hco
            simp only [node.tid_mk] at hg1 hg2
            rw [← h2]
            simp only [node.setChildren_setChildren, node.children_setChildren,
              Children.set_set]
            refine invNode_after_new_child curr key tid cnv child2 hchk hchl hlk
              hinv2 hti hco ?_ hg1 hg2
            rcases classify_ok convs part tid cnv key hpart hcl with
              ⟨htid, hcnv, hkey, hps⟩ | ⟨htid, hcnv, hkey⟩ | ⟨htid, hcnv, hkey, hns, hnc⟩
            · exact Or.inl ⟨htid, hcnv, by rw [hkey, hps]⟩
            · exact Or.inr (Or.inl ⟨htid, hcnv, hkey⟩)
            · exact Or.inr (Or.inr ⟨htid, hcnv, by rw [hkey]; exact hns,
                by rw [hkey]; exact hnc⟩)

theorem refsAll_eq (P : Nat → Bool) (t : Nat) (c : Option convert)
    (m : Option Nat) (ch : Children) :
    refsAll P (.mk t c m ch) =
      ((match m with | none => true | some r => P r) && refsAllChildren P ch) := by
  simp only [refsAll]

theorem refsAllChildren_eq (P : Nat → Bool) (k : String) (v : node) (r : Children) :
    refsAllChildren P (.cons k v r) = (refsAll P v && refsAllChildren P r) := by
  simp only [refsAllChildren]

theorem refsAllChildren_set (P : Nat → Bool) :
    ∀ (ch : Children) (k : String) (v : node),
    refsAllChildren P ch = true → refsAll P v = true →
    refsAllChildren P (ch.set k v) = true
  | .nil, k, v => by
    intro h hv
    rw [Children.set, refsAllChildren_eq, hv, h]
    rfl
  | .cons k1 v1 r, k, v => by
    intro h hv
    obtain ⟨h1, h2⟩ := band_true (by rw [refsAllChildren_eq] at h; exact h)
    rw [Children.set]
    by_cases hk : k1 = k
    · rw [if_pos hk, refsAllChildren_eq, hv, h2]
      rfl
    · rw [if_neg hk, refsAllChildren_eq, h1, refsAllChildren_set P r k v h2 hv]
      rfl

theorem refsAll_setChildren (P : Nat → Bool) (n : node) (ch : Children)
    (hm : ∀ r, n.methods = some r → P r = true)
    (hch : refsAllChildren P ch = true) :
    refsAll P (n.setChildren ch) = true := by
  cases n with
  | mk t c m ch0 =>
    rw [node.setChildren, refsAll_eq]
    cases m with
    | none => rw [hch]; rfl
    | some r =>
      dsimp only
      rw [hm r rfl, hch]
      rfl

theorem insertLoop_refs (P : Nat → Bool) (convs : List (String × convert)) (f : Nat) :
    ∀ (parts : List String) (curr t' : node) (r : Nat) (b : Bool),
    refsAll P curr = true → P f = true →
    insertLoop convs f curr parts = .ok (t', r, b) → refsAll P t' = true
  | [], curr, t', r, b, hrefs, hPf, h => by
    simp only [insertLoop] at h
    split at h
    · injection h with h1
      injection h1 with h2 h3
      exact h2 ▸ hrefs
    · injection h with h1
      injection h1 with h2 h3
      rw [← h2]
      cases curr with
      | mk t c m ch =>
        rw [node.setMethods, refsAll_eq]
        dsimp only
        rw [hPf]
        rw [refsAll_eq] at hrefs
        rw [(band_true hrefs).2]
        rfl
  | part :: rest, curr, t', r, b, hrefs, hPf, h => by
    simp only [insertLoop] at h
    split at h
    · cases h
    · next tid cnv key hcl =>
      split at h
      · next child hlk =>
        split at h
        · cases h
        · split at h
          · cases h
          · next child2 r2 b2 hrec =>
            injection h with h1
            injection h1 with h2 h3
            have hchild : refsAll P child = true :=
              refsAllChildren_lookup P curr.children key child
                (refsAll_children P curr hrefs) hlk
            have hc2 := insertLoop_refs P convs f rest child child2 r2 b2 hchild hPf hrec
            rw [← h2]
            refine refsAll_setChildren P curr _ ?_ ?_
            · intro r0 hm0
              exact refsAll_methods P curr hrefs r0 hm0
            · exact refsAllChildren_set P curr.children key child2
                (refsAll_children P curr hrefs) hc2
      · next hlk =>
        split at h
        · cases h
        · next curr2 hins =>
          split at h
          · cases h
          · next child2 r2 b2 hrec =>
            injection h with h1
            injection h1 with h2 h3
            obtain ⟨hcshape, -, -⟩ := node.insert_eq_some _ _ _ _ hins
            subst hcshape
            have hin : refsAll P (node.mk tid cnv none .nil) = true := by
              rw [refsAll_eq]
              rfl
            have hc2 := insertLoop_refs P convs f rest _ child2 r2 b2 hin hPf hrec
            rw [← h2]
            simp only [node.setChildren_setChildren, node.children_setChildren,
              Children.set_set]
            refine refsAll_setChildren P curr _ ?_ ?_
            · intro r0 hm0
              exact refsAll_methods P curr hrefs r0 hm0
            · exact refsAllChildren_set P curr.children key child2
                (refsAll_children P curr hrefs) hc2

mutual
theorem refsAll_mono (P Q : Nat → Bool) (hPQ : ∀ x, P x = true → Q x = true) :
    ∀ n : node, refsAll P n = true → refsAll Q n = true
  | .mk t c m ch, h => by
    rw [refsAll_eq] at h ⊢
    obtain ⟨h1, h2⟩ := band_true h
    rw [refsAllChildren_mono P Q hPQ ch h2]
    cases m with
    | none => rfl
    | some r =>
      dsimp only
      dsimp only at h1
      rw [hPQ r h1]
      rfl

theorem refsAllChildren_mono (P Q : Nat → Bool) (hPQ : ∀ x, P x = true → Q x = true) :
    ∀ ch : Children, refsAllChildren P ch = true → refsAllChildren Q ch = true
  | .nil, _ => rfl
  | .cons k v r, h => by
    rw [refsAllChildren_eq] at h ⊢
    obtain ⟨h1, h2⟩ := band_true h
    rw [refsAll_mono P Q hPQ v h1, refsAllChildren_mono P Q hPQ r h2]
    rfl
end

theorem wf_of (mix : ServeMixer) (h1 : invNode mix.tree.root = true)
    (h2 : refsAll (fun r => (tlookup mix.tables r).isSome && decide (r < mix.nextRef))
      mix.tree.root = true)
    (h3 : mix.tree.root.methods = none) : wf mix = true := by
  rw [wf, h1, h2]
  simp [h3]

theorem wf_handle (mix : ServeMixer) (method pattern : String)
    (hd : Option HttpHandler) (hwf : wf mix = true) :
    wf (mix.Handle method pattern hd).1 = true := by
  cases he : (mix.Handle method pattern hd).2 with
  | some e =>
    have h : mix.Handle method pattern hd = ((mix.Handle method pattern hd).1, some e) := by
      rw [← he]
    rw [ServeMixer.handle_fail_state mix method pattern hd _ e h]
    exact hwf
  | none =>
    cases hd with
    | none =>
      exfalso
      revert he
      unfold ServeMixer.Handle
      split
      · simp
      · simp
    | some h0 =>
      have h : mix.Handle method pattern (some h0) =
          ((mix.Handle method pattern (some h0)).1, none) := by
        rw [← he]
      obtain ⟨hm, parts, r, mixa, hsplit, hins, hnodup, hmix1⟩ :=
        ServeMixer.handle_ok_spec mix method pattern h0 _ h
      obtain ⟨t, b, hl, hmixa⟩ := ServeMixer.insert_ok_spec mix parts mixa r hins
      obtain ⟨hinv0, hrefs0, hroot0⟩ := wf_spec mix hwf
      obtain ⟨hne, hgood⟩ := splitURL_ok pattern parts hsplit
      -- the tree of the new state
      have htree1 : (mix.Handle method pattern (some h0)).1.tree.root = t := by
        rw [hmix1, hmixa]
      have hinv1 : invNode t = true :=
        insertLoop_inv mix.converters mix.nextRef parts mix.tree.root t r b
          hinv0 hgood hl
      have hmeth1 : t.methods = none := by
        cases parts with
        | nil => exact absurd rfl hne
        | cons p ps =>
          rw [insertLoop_keeps_methods mix.converters mix.nextRef
            mix.tree.root p ps t r b hl]
          exact hroot0
      -- the reference structure of the new state
      have hrefs1 : refsAll (fun x => (tlookup mixa.tables x).isSome &&
          decide (x < mixa.nextRef)) t = true := by
        cases b with
        | false =>
          have hteq := insertLoop_false_eq _ _ _ _ _ _ hl
          have htab : mixa.tables = mix.tables := by
            rw [hmixa]
            rfl
          have hnr : mixa.nextRef = mix.nextRef := by
            rw [hmixa]
            rfl
          rw [hteq, htab, hnr]
          exact hrefs0
        | true =>
          have hrf : r = mix.nextRef := insertLoop_true_ref _ _ _ _ _ _ hl
          have htab : mixa.tables = (r, []) :: mix.tables := by
            rw [hmixa]
            rfl
          have hnr : mixa.nextRef = mix.nextRef + 1 := by
            rw [hmixa]
            rfl
          rw [htab, hnr]
          refine insertLoop_refs _ mix.converters mix.nextRef parts
            mix.tree.root t r true ?_ ?_ hl
          · refine refsAll_mono _ _ ?_ mix.tree.root hrefs0
            intro x hx
            obtain ⟨hx1, hx2⟩ := band_true hx
            have hx2' : x < mix.nextRef := by simpa using hx2
            rw [tlookup]
            have hxr : ¬r = x := by
              intro hh
              rw [hrf] at hh
              omega
            rw [if_neg hxr]
            rw [hx1]
            simp
            omega
          · rw [tlookup, if_pos hrf]
            simp
      rw [hmix1]
      refine wf_of _ ?_ ?_ ?_
      · have : ({ mixa with tables := tupdate mixa.tables r (minsert (heapTable mixa.tables r) method h0) } : ServeMixer).tree.root = t := by
          rw [hmixa]
        rw [this]
        exact hinv1
      · have htr : ({ mixa with tables := tupdate mixa.tables r (minsert (heapTable mixa.tables r) method h0) } : ServeMixer).tree.root = t := by
          rw [hmixa]
        rw [htr]
        refine refsAll_mono _ _ ?_ t hrefs1
        intro x hx
        obtain ⟨hx1, hx2⟩ := band_true hx
        have : (tlookup (tupdate mixa.tables r (minsert (heapTable mixa.tables r) method h0)) x).isSome = true := by
          rw [tlookup_tupdate_isSome]
          exact hx1
        rw [this, hx2]
        rfl
      · have htr : ({ mixa with tables := tupdate mixa.tables r (minsert (heapTable mixa.tables r) method h0) } : ServeMixer).tree.root = t := by
          rw [hmixa]
        rw [htr]
        exact hmeth1

theorem wf_new : wf NewServeMixer = true := by decide

theorem Reach_wf (mix : ServeMixer) (h : Reach mix) : wf mix = true := by
  induction h with
  | new => exact wf_new
  | handle mix0 method pattern hd hr ih => exact wf_handle mix0 method pattern hd ih

theorem handlerLoop_err (tables : Tables) (method : String) :
    ∀ (parts : List String) (nd : node) (i : Nat) (params : PathParams) (e : MixErr),
    invNode nd = true →
    handlerLoop tables method nd parts i params = .error e → e = .ErrNotFound
  | [], nd, i, params, e, hinv, h => by
    simp only [handlerLoop] at h
    split at h
    · injection h with h1
      exact h1.symm
    · split at h
      · injection h with h1
        exact h1.symm
      · cases h
  | part :: rest, nd, i, params, e, hinv, h => by
    simp only [handlerLoop] at h
    split at h
    · next child hlk =>
      have hc := (invChildren_lookup nd.children part child
        (invNode_spec nd hinv).2 hlk).1
      exact handlerLoop_err tables method rest child i params e hc h
    · split at h
      · injection h with h1
        exact h1.symm
      · next child hlk =>
        split at h
        · next hcv =>
          exfalso
          obtain ⟨hcn, hcoh⟩ := invChildren_lookup nd.children typeToken child
            (invNode_spec nd hinv).2 hlk
          have hpar : child.tid = param :=
            ((coherent_iff typeToken child).mp hcoh).2.1.mpr rfl
          have := ((coherent_iff typeToken child).mp hcoh).2.2 hpar
          rw [hcv] at this
          cases this
        · next cv hcv =>
          split at h
          · injection h with h1
            exact h1.symm
          · next val hval =>
            have hc := (invChildren_lookup nd.children typeToken child
              (invNode_spec nd hinv).2 hlk).1
            exact handlerLoop_err tables method rest child (i + 1)
              (params ++ [(i, val)]) e hc h

theorem handler_no_leading_slash (mix : ServeMixer) (hwf : wf mix = true)
    (method url : String) (hu : url.data.head? ≠ some '/') :
    mix.Handler method url = .error .ErrNotFound := by
  unfold ServeMixer.Handler
  rw [splitURL_no_slash_head url hu]
  obtain ⟨-, -, hroot⟩ := wf_spec mix hwf
  simp only [handlerLoop, hroot]

theorem handler_err_notFound (mix : ServeMixer) (hwf : wf mix = true)
    (method url : String) (e : MixErr)
    (h : mix.Handler method url = .error e) : e = .ErrNotFound := by
  unfold ServeMixer.Handler at h
  obtain ⟨hinv, -, -⟩ := wf_spec mix hwf
  exact handlerLoop_err mix.tables method (splitURL url).1 mix.tree.root 0 [] e hinv h

mutual
theorem invNode_conflictRule : ∀ n : node, invNode n = true → conflictRuleOK n = true
  | .mk t c m ch, h => by
    rw [invNode_eq] at h
    obtain ⟨h1, h2⟩ := band_true h
    simp only [conflictRuleOK]
    rw [h1, invChildren_conflictRule ch h2]
    rfl

theorem invChildren_conflictRule :
    ∀ ch : Children, invChildren ch = true → conflictRuleChildren ch = true
  | .nil, _ => rfl
  | .cons k v r, h => by
    rw [invChildren_eq] at h
    obtain ⟨h1, h4⟩ := band_true h
    obtain ⟨h2, h3⟩ := band_true h1
    simp only [conflictRuleChildren]
    rw [invNode_conflictRule v h3, invChildren_conflictRule r h4]
    rfl
end

/-! ## Claim theorems -/

/-- Claim C1: a registration that fails at any point — unknown converter
name, structural conflict, or any other registration-time fault — leaves
the live mixer state (tree, tables, allocation counter) exactly as it
was before the call; in particular registering the pattern /a/b/:mem
after /a/b exists fails with the invalid-path-parameter error and adds
no parameter edge under the b node. -/
theorem C1_failed_registration_no_mutation :
    (∀ (mix : ServeMixer) (method pattern : String) (hd : Option HttpHandler)
      (mix2 : ServeMixer) (e : MixErr),
      mix.Handle method pattern hd = (mix2, some e) → mix2 = mix) ∧
    ((NewServeMixer.Handle "GET" "/a/b" (some 1)).1.Handle "GET" "/a/b/:mem" (some 2)
        = ((NewServeMixer.Handle "GET" "/a/b" (some 1)).1, some .ErrPathParam) ∧
      (nodeAt (NewServeMixer.Handle "GET" "/a/b" (some 1)).1.tree.root ["a", "b"]).isSome = true ∧
      ((nodeAt (NewServeMixer.Handle "GET" "/a/b" (some 1)).1.tree.root ["a", "b"]).bind
        (fun n => n.children.lookup typeToken)) = none) := by
  constructor
  · intro mix method pattern hd mix2 e h
    exact ServeMixer.handle_fail_state mix method pattern hd mix2 e h
  · decide

/-- Claim C1 witness: the universal part applied to the concrete failing
registration of /a/b/:mem. -/
theorem C1_witness :
    ((NewServeMixer.Handle "GET" "/a/b" (some 1)).1.Handle "GET" "/a/b/:mem" (some 2)).1
      = (NewServeMixer.Handle "GET" "/a/b" (some 1)).1 :=
  C1_failed_registration_no_mutation.1
    (NewServeMixer.Handle "GET" "/a/b" (some 1)).1 "GET" "/a/b/:mem" (some 2)
    ((NewServeMixer.Handle "GET" "/a/b" (some 1)).1.Handle "GET" "/a/b/:mem" (some 2)).1
    .ErrPathParam (by decide)

/-- Claim C2: in every mixer state reachable through the registration
API, every node of the live tree satisfies the structural conflict rule
(never a parameter child together with literal children, at most one
parameter child, at most one trailing-slash child); registering /a then
/:int fails with the multiple-types error, while /a then /b, and /a then
/, succeed as siblings. -/
theorem C2_structural_conflict_rule (m : ServeMixer) (hm : Reach m) :
    conflictRuleOK m.tree.root = true ∧
    ((NewServeMixer.Handle "GET" "/a" (some 1)).1.Handle "GET" "/:int" (some 2)
        = ((NewServeMixer.Handle "GET" "/a" (some 1)).1, some .ErrMultiplePathParam) ∧
      (((NewServeMixer.Handle "GET" "/a" (some 1)).1.Handle "GET" "/b" (some 2)).2 = none ∧
        (((NewServeMixer.Handle "GET" "/a" (some 1)).1.Handle "GET" "/b" (some 2)).1.tree.root.children.lookup "a").isSome = true ∧
        (((NewServeMixer.Handle "GET" "/a" (some 1)).1.Handle "GET" "/b" (some 2)).1.tree.root.children.lookup "b").isSome = true) ∧
      (((NewServeMixer.Handle "GET" "/a" (some 1)).1.Handle "GET" "/" (some 2)).2 = none ∧
        (((NewServeMixer.Handle "GET" "/a" (some 1)).1.Handle "GET" "/" (some 2)).1.tree.root.children.lookup "a").isSome = true ∧
        (((NewServeMixer.Handle "GET" "/a" (some 1)).1.Handle "GET" "/" (some 2)).1.tree.root.children.lookup "/").isSome = true)) := by
  constructor
  · exact invNode_conflictRule m.tree.root (wf_spec m (Reach_wf m hm)).1
  · decide

/-- Claim C2 witness: the theorem applied to the initial mixer, which is
reachable by construction. -/
theorem C2_witness :
    conflictRuleOK NewServeMixer.tree.root = true :=
  (C2_structural_conflict_rule NewServeMixer Reach.new).1

/-- Claim C3, counterexample: the request path /a//b fails segment
validation, yet dispatching it against a table holding /a/:str/b returns
that route's handler (the discarded splitting error leaves the invalid
segment list in use, and the empty segment converts successfully through
the str converter) — refuting the claim that a malformed path never
matches any handler. -/
theorem C3_counterexample :
    (splitURL "/a//b").2 = some .ErrPattern ∧
    (NewServeMixer.Handle "GET" "/a/:str/b" (some 1)).1.Handler "GET" "/a//b"
      = .ok (1, some [(0, Val.str "")]) := by
  decide

/-- Claim C3 (amended): dispatch discards the splitting error and never
propagates it as a structural error — for every reachable route table
every dispatch failure is the not-found error, and a path without a
leading slash always yields not-found — but a path with an empty
interior segment is walked anyway and may match a handler through a
parameter edge whose converter accepts the empty segment. -/
theorem C3_amended_malformed_paths (m : ServeMixer) (hm : Reach m)
    (method url : String) :
    (url.data.head? ≠ some '/' → m.Handler method url = .error .ErrNotFound) ∧
    (∀ e, m.Handler method url = .error e → e = .ErrNotFound) :=
  ⟨fun hu => handler_no_leading_slash m (Reach_wf m hm) method url hu,
   fun e he => handler_err_notFound m (Reach_wf m hm) method url e he⟩

/-- Claim C3 witness: the amended theorem applied to the initial mixer
and a path without a leading slash. -/
theorem C3_witness :
    NewServeMixer.Handler "GET" "x" = .error .ErrNotFound :=
  (C3_amended_malformed_paths NewServeMixer Reach.new "GET" "x").1 (by decide)

/-- Claim C4: after registering GET /catalog/:int with handler 1,
dispatching GET /catalog/42 returns that handler with the integer 42
stored at parameter index 0; dispatching GET /catalog/x (conversion
failure) returns not-found with no parameters attached; dispatching
POST /catalog/42 (unregistered method) returns not-found. -/
theorem C4_end_to_end_catalog :
    (NewServeMixer.Handle "GET" "/catalog/:int" (some 1)).2 = none ∧
    (NewServeMixer.Handle "GET" "/catalog/:int" (some 1)).1.Handler "GET" "/catalog/42"
      = .ok (1, some [(0, Val.int 42)]) ∧
    (NewServeMixer.Handle "GET" "/catalog/:int" (some 1)).1.Handler "GET" "/catalog/x"
      = .error .ErrNotFound ∧
    (NewServeMixer.Handle "GET" "/catalog/:int" (some 1)).1.Handler "POST" "/catalog/42"
      = .error .ErrNotFound :=
  ⟨by decide, by decide, by decide, by decide⟩

/-- Claim C5: the segment splitter maps /a/b/ to the parts a, b and the
trailing-slash marker; /a//b is a structural error (the parts are still
produced); the empty string is a structural error with an empty part
list; / is the single trailing-slash part with no error. -/
theorem C5_splitter_round_trip :
    splitURL "/a/b/" = (["a", "b", "/"], none) ∧
    splitURL "/a//b" = (["a", "", "b"], some .ErrPattern) ∧
    splitURL "" = ([], some .ErrPattern) ∧
    splitURL "/" = (["/"], none) := by
  decide

/-- Claim C6: at a trie position already holding a parameter edge, a new
parameter declaration whose converter name resolves in the registry
succeeds (descending into the existing node) exactly when the resolved
converter is the identical converter object stored on the edge, and
otherwise fails with the multiple-types-for-path-parameter error —
sameness is object identity of the converter. -/
theorem C6_converter_identity (convs : List (String × convert)) (f : Nat)
    (n child : node) (nm : List Char) (c cp : convert)
    (hlk : n.children.lookup typeToken = some child)
    (hconv : child.conv = some cp)
    (hname : lookupConv convs (String.mk nm) = some c) :
    ((∃ res, insertLoop convs f n [String.mk (':' :: nm)] = .ok res) ↔ c = cp) ∧
    (c ≠ cp → insertLoop convs f n [String.mk (':' :: nm)]
      = .error .ErrMultiplePathParam) := by
  have hcl : classify convs (String.mk (':' :: nm)) = .ok (param, some c, typeToken) := by
    unfold classify
    rw [show (String.mk (':' :: nm)).data = ':' :: nm from rfl]
    simp [hname]
  have hstep : insertLoop convs f n [String.mk (':' :: nm)] =
      (if child.conv ≠ some c then .error .ErrMultiplePathParam
       else match insertLoop convs f child [] with
        | .error e => .error e
        | .ok (child', r, b) =>
          .ok (n.setChildren (n.children.set typeToken child'), r, b)) := by
    simp only [insertLoop, hcl]
    rw [hlk]
  by_cases hcc : c = cp
  · subst hcc
    rw [hconv] at hstep
    rw [if_neg (by simp)] at hstep
    constructor
    · constructor
      · intro _
        rfl
      · intro _
        rw [hstep]
        simp only [insertLoop]
        cases child.methods <;> exact ⟨_, rfl⟩
    · intro hne
      exact absurd rfl hne
  · have hne : child.conv ≠ some c := by
      rw [hconv]
      intro hh
      injection hh with hh
      exact hcc hh.symm
    rw [if_pos hne] at hstep
    constructor
    · constructor
      · rintro ⟨res, hres⟩
        rw [hstep] at hres
        cases hres
      · intro hcp
        exact absurd hcp hcc
    · intro _
      exact hstep

/-- Claim C6 witness: the theorem applied to a concrete tree holding a
parameter edge with the str converter and the declaration :int. -/
theorem C6_witness :
    ¬(∃ res, insertLoop NewServeMixer.converters 0
      (node.mk root none none (.cons ":" (node.mk param (some .sc) none .nil) .nil))
      [String.mk (':' :: "int".data)] = .ok res) :=
  fun hex =>
    absurd ((C6_converter_identity NewServeMixer.converters 0
      (node.mk root none none (.cons ":" (node.mk param (some .sc) none .nil) .nil))
      (node.mk param (some .sc) none .nil) "int".data .ic .sc
      (by decide) (by decide) (by decide)).1.mp hex) (by decide)

/-- Claim C7, counterexample: after registering /: the parameter
position holds the empty-name default converter (the str object), and
re-declaring it as /:int — int being a registered converter — fails with
the multiple-types error instead of succeeding, refuting the claim that
a default-typed position accepts any registered converter name. -/
theorem C7_counterexample :
    ((NewServeMixer.Handle "GET" "/:" (some 1)).1.tree.root.children.lookup ":").map node.conv
      = some (some .sc) ∧
    lookupConv NewServeMixer.converters "" = some .sc ∧
    lookupConv NewServeMixer.converters "int" = some .ic ∧
    (NewServeMixer.Handle "GET" "/:" (some 1)).1.Handle "POST" "/:int" (some 2)
      = ((NewServeMixer.Handle "GET" "/:" (some 1)).1, some .ErrMultiplePathParam) :=
  ⟨by decide, by decide, by decide, by decide⟩

/-- Claim C7 (amended): re-declaring an existing parameter position
under a different converter name is permitted exactly when the new name
resolves to the identical converter object stored on the edge; in the
default registry the empty name and str alias one converter object, so
a position declared with the default converter accepts re-declaration as
:str but rejects :int, while a position holding the int converter
rejects the default and str names and accepts only :int. -/
theorem C7_amended_default_alias :
    (((NewServeMixer.Handle "GET" "/:" (some 1)).1.Handle "POST" "/:str" (some 2)).2 = none ∧
      ((NewServeMixer.Handle "GET" "/:" (some 1)).1.Handle "POST" "/:int" (some 2)).2
        = some .ErrMultiplePathParam) ∧
    (((NewServeMixer.Handle "GET" "/:int" (some 1)).1.Handle "POST" "/:" (some 2)).2
        = some .ErrMultiplePathParam ∧
      ((NewServeMixer.Handle "GET" "/:int" (some 1)).1.Handle "POST" "/:str" (some 2)).2
        = some .ErrMultiplePathParam ∧
      ((NewServeMixer.Handle "GET" "/:int" (some 1)).1.Handle "POST" "/:int" (some 2)).2
        = none) :=
  ⟨⟨by decide, by decide⟩, by decide, by decide, by decide⟩

/-- Claim C8: a successful registration of a segment sequence is
idempotent — re-inserting the same parts into the resulting mixer
succeeds, leaves the state exactly as it was, and returns the same
method-table reference as the first insert. -/
theorem C8_insert_idempotent (mix : ServeMixer) (parts : List String)
    (mix1 : ServeMixer) (r : Nat) (h : mix.insert parts = (mix1, .ok r)) :
    mix1.insert parts = (mix1, .ok r) :=
  ServeMixer.insert_idem mix parts mix1 r h

/-- Claim C8 witness: inserting catalog :int twice from the initial
mixer returns the same table reference 0 and the same state. -/
theorem C8_witness :
    (NewServeMixer.insert ["catalog", ":int"]).1.insert ["catalog", ":int"]
      = ((NewServeMixer.insert ["catalog", ":int"]).1, .ok 0) :=
  C8_insert_idempotent NewServeMixer ["catalog", ":int"]
    (NewServeMixer.insert ["catalog", ":int"]).1 0 (by decide)

/-- Claim C9: for a reachable mixer, registering the same method and
pattern twice fails on the second call with the duplicate-handler error
(the method slot at the resolved node is already occupied), and the
state after the failed second call is exactly the state after the first
call. -/
theorem C9_duplicate_registration (mix : ServeMixer) (method pattern : String)
    (h0 h1 : HttpHandler) (mix1 : ServeMixer) (hr : Reach mix)
    (h : mix.Handle method pattern (some h0) = (mix1, none)) :
    mix1.Handle method pattern (some h1) = (mix1, some .ErrDuplicate) :=
  ServeMixer.handle_duplicate mix method pattern h0 h1 mix1 (Reach_wf mix hr) h

/-- Claim C9 witness: registering GET /a/b twice from the initial
mixer. -/
theorem C9_witness :
    (NewServeMixer.Handle "GET" "/a/b" (some 1)).1.Handle "GET" "/a/b" (some 2)
      = ((NewServeMixer.Handle "GET" "/a/b" (some 1)).1, some .ErrDuplicate) :=
  C9_duplicate_registration NewServeMixer "GET" "/a/b" 1 2
    (NewServeMixer.Handle "GET" "/a/b" (some 1)).1 Reach.new (by decide)

/-- Claim C10: when a dispatched segment is the literal string ":" and
the node has a parameter edge, the exact child lookup matches the
parameter edge directly, so traversal descends without invoking the
converter and without recording a parameter; concretely, with
GET /a/:int/b registered, dispatching /a/:/b returns that handler with
no parameters attached. -/
theorem C10_literal_colon_segment :
    (∀ (tables : Tables) (method : String) (nd child : node) (rest : List String)
      (i : Nat) (params : PathParams),
      nd.children.lookup typeToken = some child →
      handlerLoop tables method nd (typeToken :: rest) i params
        = handlerLoop tables method child rest i params) ∧
    (NewServeMixer.Handle "GET" "/a/:int/b" (some 1)).1.Handler "GET" "/a/:/b"
      = .ok (1, none) := by
  constructor
  · intro tables method nd child rest i params h
    simp only [handlerLoop]
    rw [h]
  · decide

/-- Claim C10 witness: the traversal step applied at the parameter node
of the concrete tree for /a/:int/b. -/
theorem C10_witness :
    handlerLoop [] "GET"
      (node.mk root none none (.cons ":" (node.mk param (some .ic) none .nil) .nil))
      [":"] 0 []
      = handlerLoop [] "GET" (node.mk param (some .ic) none .nil) [] 0 [] :=
  C10_literal_colon_segment.1 [] "GET"
    (node.mk root none none (.cons ":" (node.mk param (some .ic) none .nil) .nil))
    (node.mk param (some .ic) none .nil) [] 0 [] (by decide)
